import Mathlib

/-!
Verification of the phenoscale.pam.app data pipeline.

The numeric core of the application (src/lib/dataStore.ts, src/lib/kdeService.ts,
src/lib/KDEMap.svelte) is embedded shallowly over the rationals: JavaScript
numbers become ℚ, arrays become lists, and a missing array entry read as
`counts[i] || 0` (resp. `values[i] ?? 0`) becomes `List.getD _ _ 0`.  The two
transcendental library calls of the source (`Math.cos` in the projection and
`Math.exp` in the Gaussian kernel) enter as abstract parameters, since none of
the verified properties depends on their particular values.  Per-logger series
are assumed index-aligned with the date axis, the stated invariant of the data
model.
-/

namespace PhenoPam

/-- The per-site time series of one species: site name paired with the per-day
detection counts, mirroring `timeSeries.sites` of dataStore.ts. -/
abbrev Sites := List (String × List ℚ)

/-- Reading `counts[i] || 0` from precomputeMapStats: index `i` of the array,
with a missing entry read as 0. -/
def countAt (counts : List ℚ) (i : ℕ) : ℚ := counts.getD i 0

/-- `dailySiteValues[i]` of precomputeMapStats: the day-`i` counts of all sites
in site order. -/
def dailySiteValues (sites : Sites) (i : ℕ) : List ℚ :=
  sites.map (fun p => countAt p.2 i)

/-- `dailyTotals[i]` of precomputeMapStats: the sum of all site counts on day `i`. -/
def dailyTotal (sites : Sites) (i : ℕ) : ℚ := (dailySiteValues sites i).sum

/-- The `dailyTotals` array of precomputeMapStats. -/
def dailyTotals (sites : Sites) (numDays : ℕ) : List ℚ :=
  (List.range numDays).map (dailyTotal sites)

/-- Every single-logger single-day cell value of the series, flattened. -/
def allCounts (sites : Sites) (numDays : ℕ) : List ℚ :=
  (sites.map (fun p => (List.range numDays).map (fun i => countAt p.2 i))).flatten

/-- The running maximum of precomputeMapStats before the final `|| 1` fallback:
`globalMax` starts at 0 and is raised to any larger cell value. -/
def globalMaxRaw (sites : Sites) (numDays : ℕ) : ℚ :=
  (allCounts sites numDays).foldl max 0

/-- The stored `globalMax || 1` of precomputeMapStats: the raw maximum, with the
falsy value 0 replaced by 1. -/
def globalMax (sites : Sites) (numDays : ℕ) : ℚ :=
  if globalMaxRaw sites numDays = 0 then 1 else globalMaxRaw sites numDays

/-- `Math.max(...dailyTotals, 1)` of precomputeMapStats. -/
def maxDailyTotal (sites : Sites) (numDays : ℕ) : ℚ :=
  (dailyTotals sites numDays).foldl max 1

/-- The trailing seven-day mean `dailyTotals.slice(i - 7, i).reduce(..) / 7`
used by the trend loop of precomputeMapStats. -/
def prevMean (totals : List ℚ) (i : ℕ) : ℚ :=
  ((totals.drop (i - 7)).take 7).sum / 7

/-- One entry of the trend loop of precomputeMapStats: days before index 7 keep
the initial 0; later days compare against the trailing seven-day mean and clamp
the relative change to [-1, 1], leaving 0 when the mean is not positive. -/
def trendAt (totals : List ℚ) (i : ℕ) : ℚ :=
  if i < 7 then 0
  else if prevMean totals i > 0 then
    max (-1) (min 1 ((totals.getD i 0 - prevMean totals i) / prevMean totals i))
  else 0

/-- The `dailyTrends` array of precomputeMapStats. -/
def dailyTrends (sites : Sites) (numDays : ℕ) : List ℚ :=
  (List.range numDays).map (trendAt (dailyTotals sites numDays))

/-- Ascending sort, the embedding of `[...values].sort((a, b) => a - b)`. -/
def sortedAsc (l : List ℚ) : List ℚ := l.insertionSort (fun a b => a ≤ b)

/-- The Gini numerator `sum of (j + 1) * sorted[j]` of precomputeMapStats. -/
def giniNumerator (sorted : List ℚ) : ℚ :=
  (sorted.enum.map (fun p => ((p.1 : ℚ) + 1) * p.2)).sum

/-- The per-day Gini computation of precomputeMapStats: for a positive day
total, sort the day values ascending, form the Gini coefficient, and clamp it
below by 0; otherwise 0. -/
def giniValue (values : List ℚ) (totalDetections : ℚ) : ℚ :=
  if totalDetections > 0 then
    let sorted := sortedAsc values
    let n : ℚ := sorted.length
    max 0 ((2 * giniNumerator sorted) / (n * totalDetections) - (n + 1) / n)
  else 0

/-- The `dailyClustering` array of precomputeMapStats. -/
def dailyClustering (sites : Sites) (numDays : ℕ) : List ℚ :=
  (List.range numDays).map (fun i => giniValue (dailySiteValues sites i) (dailyTotal sites i))

/-- The `cumulativeTotal` array of precomputeMapStats: entry `i` is the running
sum of the daily totals up to and including day `i`. -/
def cumulativeTotal (sites : Sites) (numDays : ℕ) : List ℚ :=
  (List.range numDays).map (fun i => ((dailyTotals sites numDays).take (i + 1)).sum)

/-! ### List helper lemmas -/

theorem getD_range_map (f : ℕ → ℚ) {n d : ℕ} (h : d < n) :
    ((List.range n).map f).getD d 0 = f d := by
  rw [List.getD_eq_getElem?_getD]
  simp [List.getElem?_map, List.getElem?_range h]

theorem getD_nonneg {l : List ℚ} (h : ∀ x ∈ l, 0 ≤ x) (i : ℕ) : 0 ≤ l.getD i 0 := by
  rw [List.getD_eq_getElem?_getD]
  cases hg : l[i]? with
  | none => simp
  | some v =>
    simp only [Option.getD_some]
    exact h v (List.getElem?_mem hg)

theorem foldl_max_init_le (l : List ℚ) (a : ℚ) : a ≤ l.foldl max a := by
  induction l generalizing a with
  | nil => simp
  | cons x xs ih => exact le_trans (le_max_left a x) (ih _)

theorem le_foldl_max_of_mem {l : List ℚ} {x : ℚ} (h : x ∈ l) (a : ℚ) :
    x ≤ l.foldl max a := by
  induction l generalizing a with
  | nil => cases h
  | cons y ys ih =>
    cases h with
    | head => exact le_trans (le_max_right a x) (foldl_max_init_le ys _)
    | tail _ hm => exact ih hm _

theorem foldl_max_eq_or_mem (l : List ℚ) (a : ℚ) :
    l.foldl max a = a ∨ l.foldl max a ∈ l := by
  induction l generalizing a with
  | nil => exact Or.inl rfl
  | cons x xs ih =>
    rcases ih (max a x) with h | h
    · rcases le_or_lt x a with hxa | hxa
      · left
        rw [List.foldl_cons] at *
        rw [h, max_eq_left hxa]
      · right
        rw [List.foldl_cons, h, max_eq_right (le_of_lt hxa)]
        exact List.mem_cons_self x xs
    · exact Or.inr (List.mem_cons_of_mem x h)

theorem sum_take_le_sum_take {l : List ℚ} (h : ∀ x ∈ l, 0 ≤ x) {i j : ℕ}
    (hij : i ≤ j) : (l.take i).sum ≤ (l.take j).sum := by
  have hj : j = i + (j - i) := by omega
  rw [hj, List.take_add, List.sum_append]
  have : 0 ≤ ((l.drop i).take (j - i)).sum := by
    refine List.sum_nonneg (fun x hx => ?_)
    exact h x (List.mem_of_mem_drop (List.mem_of_mem_take hx))
  linarith

/-! ### Gini coefficient lemmas -/

theorem sortedAsc_perm (l : List ℚ) : (sortedAsc l).Perm l :=
  List.perm_insertionSort _ l

theorem enumFrom_weighted_sum_le (l : List ℚ) (k : ℕ) (h : ∀ x ∈ l, 0 ≤ x) :
    ((l.enumFrom k).map (fun p => ((p.1 : ℚ) + 1) * p.2)).sum
      ≤ ((k : ℚ) + l.length) * l.sum := by
  induction l generalizing k with
  | nil => simp
  | cons x xs ih =>
    have hx : 0 ≤ x := h x (List.mem_cons_self x xs)
    have hxs : ∀ y ∈ xs, 0 ≤ y := fun y hy => h y (List.mem_cons_of_mem x hy)
    have hsum : 0 ≤ xs.sum := List.sum_nonneg hxs
    have hih := ih (k + 1) hxs
    simp only [List.enumFrom, List.map_cons, List.sum_cons, List.length_cons,
      List.sum_cons] at *
    push_cast at *
    nlinarith [hih, hx, hsum]

theorem enumFrom_weighted_sum_replicate (n k : ℕ) (v : ℚ) :
    (((List.replicate n v).enumFrom k).map (fun p => ((p.1 : ℚ) + 1) * p.2)).sum
      = ((n : ℚ) * k + n * (n + 1) / 2) * v := by
  induction n generalizing k with
  | zero => simp
  | succ m ih =>
    simp only [List.replicate_succ, List.enumFrom, List.map_cons, List.sum_cons]
    rw [ih (k + 1)]
    push_cast
    ring

theorem giniValue_nonneg (values : List ℚ) (t : ℚ) : 0 ≤ giniValue values t := by
  unfold giniValue
  split
  · exact le_max_left 0 _
  · exact le_refl 0

theorem giniValue_le_one (values : List ℚ) (h : ∀ x ∈ values, 0 ≤ x) :
    giniValue values values.sum ≤ 1 := by
  unfold giniValue
  split
  case isFalse => norm_num
  case isTrue ht =>
    have hperm : (sortedAsc values).Perm values := sortedAsc_perm values
    have hsum : (sortedAsc values).sum = values.sum := hperm.sum_eq
    have hnn : ∀ x ∈ sortedAsc values, 0 ≤ x := fun x hx => h x (hperm.mem_iff.mp hx)
    have hne : values ≠ [] := by
      intro hv
      rw [hv] at ht
      simp at ht
    have hn1 : 0 < (sortedAsc values).length := by
      rw [hperm.length_eq]
      exact List.length_pos.mpr hne
    have hnq : 0 < ((sortedAsc values).length : ℚ) := by exact_mod_cast hn1
    have hnum : giniNumerator (sortedAsc values)
        ≤ ((sortedAsc values).length : ℚ) * values.sum := by
      have := enumFrom_weighted_sum_le (sortedAsc values) 0 hnn
      rw [hsum] at this
      simpa [giniNumerator, List.enum_eq_enumFrom] using this
    have hT : 0 < ((sortedAsc values).length : ℚ) * values.sum :=
      mul_pos hnq ht
    refine max_le (by norm_num) ?_
    have h2 : (2 * giniNumerator (sortedAsc values))
        / (((sortedAsc values).length : ℚ) * values.sum) ≤ 2 := by
      rw [div_le_iff hT]
      nlinarith [hnum]
    have h3 : (1 : ℚ) ≤ (((sortedAsc values).length : ℚ) + 1)
        / ((sortedAsc values).length : ℚ) := by
      rw [le_div_iff hnq]
      linarith
    linarith

theorem giniValue_const (values : List ℚ) (v : ℚ) (h : ∀ x ∈ values, x = v) :
    giniValue values values.sum = 0 := by
  unfold giniValue
  split
  case isFalse => rfl
  case isTrue ht =>
    have hperm : (sortedAsc values).Perm values := sortedAsc_perm values
    have hrep : sortedAsc values = List.replicate values.length v := by
      have hall : ∀ b ∈ sortedAsc values, b = v := fun b hb => h b (hperm.mem_iff.mp hb)
      rw [List.eq_replicate_of_mem hall, hperm.length_eq]
    have hvals : values.sum = (values.length : ℚ) * v := by
      have : values = List.replicate values.length v := List.eq_replicate_of_mem h
      rw [this, List.sum_replicate, nsmul_eq_mul]
      simp
    have hne : values ≠ [] := by
      intro hv
      rw [hv] at ht
      simp at ht
    have hnq : 0 < (values.length : ℚ) := by
      exact_mod_cast List.length_pos.mpr hne
    have hv0 : 0 < v := by
      by_contra hv
      push_neg at hv
      have : values.sum ≤ 0 := by
        rw [hvals]
        exact mul_nonpos_of_nonneg_of_nonpos (le_of_lt hnq) hv
      linarith
    have hnum : giniNumerator (sortedAsc values)
        = ((values.length : ℚ) * 0 + values.length * (values.length + 1) / 2) * v := by
      rw [giniNumerator, hrep, List.enum_eq_enumFrom]
      simpa using enumFrom_weighted_sum_replicate values.length 0 v
    have hlen : ((sortedAsc values).length : ℚ) = (values.length : ℚ) := by
      exact_mod_cast hperm.length_eq
    show max 0 (2 * giniNumerator (sortedAsc values)
        / (((sortedAsc values).length : ℚ) * values.sum)
        - (((sortedAsc values).length : ℚ) + 1) / ((sortedAsc values).length : ℚ)) = 0
    rw [hnum, hlen, hvals]
    have hinner : 2 * (((values.length : ℚ) * 0 + values.length * (values.length + 1) / 2) * v)
        / ((values.length : ℚ) * ((values.length : ℚ) * v))
        - (((values.length : ℚ)) + 1) / (values.length : ℚ) = 0 := by
      field_simp
      ring
    rw [hinner]
    simp

/-! ### Non-negativity helpers for the daily statistics -/

theorem dailySiteValues_nonneg (sites : Sites) (i : ℕ)
    (hnn : ∀ p ∈ sites, ∀ x ∈ p.2, 0 ≤ x) :
    ∀ x ∈ dailySiteValues sites i, 0 ≤ x := by
  intro x hx
  simp only [dailySiteValues, List.mem_map] at hx
  obtain ⟨p, hp, rfl⟩ := hx
  exact getD_nonneg (hnn p hp) i

theorem dailyTotal_nonneg (sites : Sites) (i : ℕ)
    (hnn : ∀ p ∈ sites, ∀ x ∈ p.2, 0 ≤ x) : 0 ≤ dailyTotal sites i :=
  List.sum_nonneg (dailySiteValues_nonneg sites i hnn)

theorem dailyTotals_nonneg (sites : Sites) (numDays : ℕ)
    (hnn : ∀ p ∈ sites, ∀ x ∈ p.2, 0 ≤ x) :
    ∀ t ∈ dailyTotals sites numDays, 0 ≤ t := by
  intro t ht
  simp only [dailyTotals, List.mem_map, List.mem_range] at ht
  obtain ⟨i, _, rfl⟩ := ht
  exact dailyTotal_nonneg sites i hnn

/-! ### Claim C1 -/

/-- C1 (amended): every dailyClustering entry produced by precomputeMapStats
lies in [0, 1] after the floor clamp; the entry is 0 when the day total is 0;
and the entry is 0 whenever that day has equal counts across all loggers.  (The
original condition, zero Gini whenever all non-zero counts are equal across the
active loggers, fails as soon as an inactive logger is present; see the
counterexample theorem.) -/
theorem gini_bounds_and_zero_cases (sites : Sites) (numDays d : ℕ)
    (hd : d < numDays) (hnn : ∀ p ∈ sites, ∀ x ∈ p.2, 0 ≤ x) :
    (0 ≤ (dailyClustering sites numDays).getD d 0 ∧
      (dailyClustering sites numDays).getD d 0 ≤ 1) ∧
    (dailyTotal sites d = 0 → (dailyClustering sites numDays).getD d 0 = 0) ∧
    (∀ v : ℚ, (∀ x ∈ dailySiteValues sites d, x = v) →
      (dailyClustering sites numDays).getD d 0 = 0) := by
  have hg : (dailyClustering sites numDays).getD d 0
      = giniValue (dailySiteValues sites d) (dailyTotal sites d) := by
    unfold dailyClustering
    exact getD_range_map _ hd
  have hsum : dailyTotal sites d = (dailySiteValues sites d).sum := rfl
  refine ⟨⟨?_, ?_⟩, ?_, ?_⟩
  · rw [hg]
    exact giniValue_nonneg _ _
  · rw [hg, hsum]
    exact giniValue_le_one _ (dailySiteValues_nonneg sites d hnn)
  · intro h0
    rw [hg, h0]
    simp [giniValue]
  · intro v hv
    rw [hg, hsum]
    exact giniValue_const _ v hv

/-- C1 counterexample: two loggers with day counts 0 and 5.  All non-zero
counts that day are equal across the active loggers and the total is positive,
yet the dailyClustering entry computed by precomputeMapStats is 1/2, not 0. -/
theorem gini_counterexample :
    (∀ x ∈ dailySiteValues [("a", [(0 : ℚ)]), ("b", [5])] 0, x ≠ 0 → x = 5) ∧
    0 < dailyTotal [("a", [(0 : ℚ)]), ("b", [5])] 0 ∧
    (dailyClustering [("a", [(0 : ℚ)]), ("b", [5])] 1).getD 0 0 = 1 / 2 := by
  refine ⟨by decide, by norm_num [dailyTotal, dailySiteValues, countAt], ?_⟩
  norm_num [dailyClustering, giniValue, dailyTotal, dailySiteValues, countAt,
    sortedAsc, giniNumerator, List.insertionSort, List.orderedInsert, List.enum,
    List.range_succ]

/-- C1 witness: the bounds theorem applied to a concrete two-logger day. -/
theorem gini_bounds_witness :
    (0 ≤ (dailyClustering [("a", [(2 : ℚ)]), ("b", [2])] 1).getD 0 0 ∧
      (dailyClustering [("a", [(2 : ℚ)]), ("b", [2])] 1).getD 0 0 ≤ 1) :=
  (gini_bounds_and_zero_cases [("a", [(2 : ℚ)]), ("b", [2])] 1 0 (by decide)
    (by decide)).1

/-! ### Claim C2 -/

/-- C2: the dailyTrends entries of precomputeMapStats are 0 for day indices
below 7; from index 7 on they equal the change of the day total relative to
the trailing seven-day mean clamped to [-1, 1], or 0 when that mean is not
positive; every entry lies in [-1, 1]; and a flat history of seven days of 10
followed by a 15 yields the trend 1/2 on day 7. -/
theorem trend_formula_and_clamp (sites : Sites) (numDays : ℕ) :
    (∀ i : ℕ, i < 7 → (dailyTrends sites numDays).getD i 0 = 0) ∧
    (∀ i : ℕ, 7 ≤ i → i < numDays →
      (dailyTrends sites numDays).getD i 0 =
        if 0 < prevMean (dailyTotals sites numDays) i then
          max (-1) (min 1 (((dailyTotals sites numDays).getD i 0
              - prevMean (dailyTotals sites numDays) i)
            / prevMean (dailyTotals sites numDays) i))
        else 0) ∧
    (∀ t ∈ dailyTrends sites numDays, -1 ≤ t ∧ t ≤ 1) ∧
    (dailyTrends [("a", [10, 10, 10, 10, 10, 10, 10, 15])] 8).getD 7 0 = 1 / 2 := by
  refine ⟨?_, ?_, ?_, by
    norm_num [dailyTrends, trendAt, prevMean, dailyTotals, dailyTotal,
      dailySiteValues, countAt, List.range_succ]⟩
  · intro i hi7
    by_cases hi : i < numDays
    · have hg : (dailyTrends sites numDays).getD i 0
          = trendAt (dailyTotals sites numDays) i := by
        unfold dailyTrends
        exact getD_range_map _ hi
      rw [hg, trendAt, if_pos hi7]
    · rw [List.getD_eq_getElem?_getD, List.getElem?_eq_none]
      · rfl
      · simp [dailyTrends]
        omega
  · intro i hi7 hi
    have hg : (dailyTrends sites numDays).getD i 0
        = trendAt (dailyTotals sites numDays) i := by
      unfold dailyTrends
      exact getD_range_map _ hi
    rw [hg, trendAt, if_neg (by omega)]
  · intro t ht
    simp only [dailyTrends, List.mem_map, List.mem_range] at ht
    obtain ⟨i, _, rfl⟩ := ht
    unfold trendAt
    split
    · norm_num
    · split
      · exact ⟨le_max_left _ _, max_le (by norm_num) (min_le_left _ _)⟩
      · norm_num

/-! ### Claim C9 -/

/-- C9: for non-negative per-logger counts, the cumulativeTotal array of
precomputeMapStats is non-decreasing in the day index and its last entry
equals the sum of all dailyTotals entries. -/
theorem cumulative_monotone_and_last (sites : Sites) (numDays : ℕ)
    (hnn : ∀ p ∈ sites, ∀ x ∈ p.2, 0 ≤ x) :
    (∀ i j : ℕ, i ≤ j → j < numDays →
      (cumulativeTotal sites numDays).getD i 0
        ≤ (cumulativeTotal sites numDays).getD j 0) ∧
    (0 < numDays →
      (cumulativeTotal sites numDays).getD (numDays - 1) 0
        = (dailyTotals sites numDays).sum) := by
  constructor
  · intro i j hij hj
    have hi : i < numDays := lt_of_le_of_lt hij hj
    have hgi : (cumulativeTotal sites numDays).getD i 0
        = ((dailyTotals sites numDays).take (i + 1)).sum := by
      unfold cumulativeTotal
      exact getD_range_map _ hi
    have hgj : (cumulativeTotal sites numDays).getD j 0
        = ((dailyTotals sites numDays).take (j + 1)).sum := by
      unfold cumulativeTotal
      exact getD_range_map _ hj
    rw [hgi, hgj]
    exact sum_take_le_sum_take (dailyTotals_nonneg sites numDays hnn) (by omega)
  · intro h0
    have hgl : (cumulativeTotal sites numDays).getD (numDays - 1) 0
        = ((dailyTotals sites numDays).take (numDays - 1 + 1)).sum := by
      unfold cumulativeTotal
      exact getD_range_map _ (by omega)
    rw [hgl]
    have h1 : numDays - 1 + 1 = numDays := by omega
    rw [h1]
    have hlen : (dailyTotals sites numDays).length = numDays := by
      simp [dailyTotals]
    rw [List.take_of_length_le (le_of_eq hlen)]

/-- C9 witness: the cumulative theorem applied to a concrete two-day series. -/
theorem cumulative_witness :
    (cumulativeTotal [("a", [(1 : ℚ), 2])] 2).getD (2 - 1) 0
      = (dailyTotals [("a", [(1 : ℚ), 2])] 2).sum :=
  (cumulative_monotone_and_last [("a", [(1 : ℚ), 2])] 2 (by decide)).2 (by decide)

/-! ### Claim C7 -/

theorem natValued_getD {l : List ℚ} (h : ∀ x ∈ l, ∃ m : ℕ, x = m) (i : ℕ) :
    ∃ m : ℕ, l.getD i 0 = m := by
  rw [List.getD_eq_getElem?_getD]
  cases hg : l[i]? with
  | none => exact ⟨0, by simp⟩
  | some v =>
    simp only [Option.getD_some]
    exact h v (List.getElem?_mem hg)

theorem allCounts_natValued (sites : Sites) (numDays : ℕ)
    (h : ∀ p ∈ sites, ∀ x ∈ p.2, ∃ m : ℕ, x = m) :
    ∀ x ∈ allCounts sites numDays, ∃ m : ℕ, x = m := by
  intro x hx
  simp only [allCounts, List.mem_flatten, List.mem_map] at hx
  obtain ⟨cell, ⟨p, hp, rfl⟩, hcell⟩ := hx
  simp only [List.mem_map, List.mem_range] at hcell
  obtain ⟨i, _, rfl⟩ := hcell
  exact natValued_getD (h p hp) i

/-- C7 (amended): globalMaxRaw is the running maximum of precomputeMapStats,
an upper bound of all single-logger single-day counts attained at one of them
unless it stays 0; the stored globalMax equals that maximum when it is non-zero
and 1 when it is zero, which matches the maximum floored at 1 (and so is at
least 1) whenever every count is a natural number; and maxDailyTotal is the
maximum of dailyTotals floored at 1.  (For fractional counts strictly between
0 and 1 the stored globalMax is below 1; see the counterexample theorem.) -/
theorem globalMax_and_maxDailyTotal (sites : Sites) (numDays : ℕ) :
    (∀ x ∈ allCounts sites numDays, x ≤ globalMaxRaw sites numDays) ∧
    (globalMaxRaw sites numDays = 0 ∨
      globalMaxRaw sites numDays ∈ allCounts sites numDays) ∧
    (globalMaxRaw sites numDays ≠ 0 →
      globalMax sites numDays = globalMaxRaw sites numDays) ∧
    (globalMaxRaw sites numDays = 0 → globalMax sites numDays = 1) ∧
    ((∀ p ∈ sites, ∀ x ∈ p.2, ∃ m : ℕ, x = m) →
      globalMax sites numDays = max (globalMaxRaw sites numDays) 1 ∧
      1 ≤ globalMax sites numDays) ∧
    (1 ≤ maxDailyTotal sites numDays ∧
      (∀ t ∈ dailyTotals sites numDays, t ≤ maxDailyTotal sites numDays) ∧
      (maxDailyTotal sites numDays = 1 ∨
        maxDailyTotal sites numDays ∈ dailyTotals sites numDays)) := by
  refine ⟨fun x hx => le_foldl_max_of_mem hx 0, foldl_max_eq_or_mem _ 0,
    fun h => by rw [globalMax, if_neg h], fun h => by rw [globalMax, if_pos h],
    ?_, foldl_max_init_le _ 1, fun t ht => le_foldl_max_of_mem ht 1,
    foldl_max_eq_or_mem _ 1⟩
  intro hnat
  by_cases h0 : globalMaxRaw sites numDays = 0
  · rw [globalMax, if_pos h0, h0]
    norm_num
  · rw [globalMax, if_neg h0]
    have hmem : globalMaxRaw sites numDays ∈ allCounts sites numDays := by
      rcases foldl_max_eq_or_mem (allCounts sites numDays) 0 with h | h
      · exact absurd h h0
      · exact h
    obtain ⟨m, hm⟩ := allCounts_natValued sites numDays hnat _ hmem
    have hm1 : 1 ≤ globalMaxRaw sites numDays := by
      rw [hm]
      rw [hm] at h0
      have : m ≠ 0 := by
        intro hm0
        apply h0
        rw [hm0]
        norm_num
      exact_mod_cast Nat.one_le_iff_ne_zero.mpr this
    exact ⟨(max_eq_left hm1).symm, hm1⟩

/-- C7 counterexample: a single logger whose only count is the float 1/2.  The
stored globalMax of precomputeMapStats is 1/2, which is neither the maximum
count floored at 1 nor at least 1. -/
theorem globalMax_counterexample :
    globalMax [("a", [(1 : ℚ) / 2])] 1 = 1 / 2 ∧
    ¬ 1 ≤ globalMax [("a", [(1 : ℚ) / 2])] 1 ∧
    globalMax [("a", [(1 : ℚ) / 2])] 1
      ≠ max (globalMaxRaw [("a", [(1 : ℚ) / 2])] 1) 1 := by
  have hraw : globalMaxRaw [("a", [(1 : ℚ) / 2])] 1 = 1 / 2 := by
    norm_num [globalMaxRaw, allCounts, countAt, List.range_succ]
  have hstored : globalMax [("a", [(1 : ℚ) / 2])] 1 = 1 / 2 := by
    rw [globalMax, hraw]
    norm_num
  refine ⟨hstored, by rw [hstored]; norm_num, ?_⟩
  rw [hstored, hraw]
  norm_num

/-! ### Claim C6 -/

/-- The binnedTotals loop of KDEMap.svelte: starting from the front of the
daily totals, sum each consecutive run of `max 1 size` entries, the last run
possibly shorter. -/
def binChunks (size : ℕ) : List ℚ → List ℚ
  | [] => []
  | x :: xs =>
    ((x :: xs).take (max 1 size)).sum :: binChunks size ((x :: xs).drop (max 1 size))
termination_by l => l.length
decreasing_by
  simp only [List.length_drop, List.length_cons]
  omega

/-- The binnedTotals derived value of KDEMap.svelte, the timeline bin size
already floored to a whole number of days (the clamp to at least 1 sits inside
binChunks). -/
def binnedTotals (dailyTotalsArr : List ℚ) (timelineBinDays : ℕ) : List ℚ :=
  binChunks timelineBinDays dailyTotalsArr

theorem binChunks_nil (size : ℕ) : binChunks size [] = [] := by
  rw [binChunks]

theorem binChunks_cons (size : ℕ) (x : ℚ) (xs : List ℚ) :
    binChunks size (x :: xs)
      = ((x :: xs).take (max 1 size)).sum
          :: binChunks size ((x :: xs).drop (max 1 size)) := by
  rw [binChunks]

theorem binChunks_length (N : ℕ) (hN : 1 ≤ N) :
    ∀ l : List ℚ, (binChunks N l).length = (l.length + N - 1) / N := by
  have hmax : max 1 N = N := max_eq_right hN
  suffices h : ∀ (n : ℕ) (l : List ℚ), l.length = n →
      (binChunks N l).length = (l.length + N - 1) / N by
    exact fun l => h l.length l rfl
  intro n
  induction n using Nat.strong_induction_on with
  | _ n ih =>
    intro l hl
    cases l with
    | nil =>
      rw [binChunks_nil]
      simp [Nat.div_eq_of_lt (show N - 1 < N by omega)]
    | cons x xs =>
      have hlt : ((x :: xs).drop N).length < n := by
        simp only [List.length_drop, List.length_cons]
        simp only [List.length_cons] at hl
        omega
      rw [binChunks_cons, hmax, List.length_cons, ih _ hlt ((x :: xs).drop N) rfl]
      simp only [List.length_drop, List.length_cons]
      rcases le_or_lt (xs.length + 1) N with hle | hgt
      · have h1 : xs.length + 1 - N = 0 := by omega
        have h2 : (xs.length + 1 + N - 1) / N = 1 :=
          Nat.div_eq_of_lt_le (by omega) (by omega)
        have h3 : (0 + N - 1) / N = 0 := Nat.div_eq_of_lt (by omega)
        rw [h1, h3, h2]
      · have h1 : xs.length + 1 - N + N - 1 = xs.length := by omega
        have h2 : xs.length + 1 + N - 1 = xs.length + N := by omega
        rw [h1, h2, Nat.add_div_right _ (by omega)]

theorem binChunks_getD (N : ℕ) (hN : 1 ≤ N) :
    ∀ (l : List ℚ) (j : ℕ), j * N < l.length →
      (binChunks N l).getD j 0 = ((l.drop (j * N)).take N).sum := by
  have hmax : max 1 N = N := max_eq_right hN
  suffices h : ∀ (n : ℕ) (l : List ℚ), l.length = n → ∀ j : ℕ, j * N < l.length →
      (binChunks N l).getD j 0 = ((l.drop (j * N)).take N).sum by
    exact fun l => h l.length l rfl
  intro n
  induction n using Nat.strong_induction_on with
  | _ n ih =>
    intro l hl
    cases l with
    | nil => simp
    | cons x xs =>
      intro j hj
      rw [binChunks_cons, hmax]
      cases j with
      | zero => simp
      | succ j =>
        have hNlen : N ≤ xs.length + 1 := by
          have : N ≤ (j + 1) * N := Nat.le_mul_of_pos_left N (by omega)
          simp only [List.length_cons] at hj
          omega
        have hlt : ((x :: xs).drop N).length < n := by
          simp only [List.length_drop, List.length_cons]
          simp only [List.length_cons] at hl
          omega
        have hjb : j * N < ((x :: xs).drop N).length := by
          simp only [List.length_drop, List.length_cons]
          simp only [List.length_cons] at hj
          have h2 : (j + 1) * N = j * N + N := by ring
          omega
        have hrec := ih _ hlt ((x :: xs).drop N) rfl j hjb
        rw [List.getD_cons_succ, hrec, List.drop_drop]
        have harith : N + j * N = (j + 1) * N := by ring
        rw [harith]

theorem binChunks_one (l : List ℚ) : binChunks 1 l = l := by
  induction l with
  | nil => exact binChunks_nil 1
  | cons x xs ih =>
    rw [binChunks_cons]
    simp [ih]

/-- C6: binnedTotals of KDEMap.svelte partitions the daily totals into
consecutive runs of N days and sums each run, the last run possibly shorter
(bin j is the sum of the N entries starting at index j * N, and the number of
bins is the length divided by N rounded up); bin size 1 returns the array
unchanged; a bin size at least the series length returns the single bin
holding the whole total; and [1, 2, 3, 4, 5] with bin size 2 yields
[3, 7, 5]. -/
theorem binnedTotals_partition (l : List ℚ) (N : ℕ) (hN : 1 ≤ N) :
    ((binnedTotals l N).length = (l.length + N - 1) / N) ∧
    (∀ j : ℕ, j * N < l.length →
      (binnedTotals l N).getD j 0 = ((l.drop (j * N)).take N).sum) ∧
    (binnedTotals l 1 = l) ∧
    (l ≠ [] → l.length ≤ N → binnedTotals l N = [l.sum]) ∧
    (binnedTotals [1, 2, 3, 4, 5] 2 = [3, 7, 5]) := by
  refine ⟨binChunks_length N hN l, binChunks_getD N hN l, binChunks_one l, ?_, ?_⟩
  · intro hne hlen
    obtain ⟨x, xs, rfl⟩ := List.exists_cons_of_ne_nil hne
    rw [binnedTotals, binChunks_cons, max_eq_right hN,
      List.take_of_length_le hlen, List.drop_eq_nil_of_le hlen, binChunks_nil]
  · rw [binnedTotals, binChunks_cons]
    norm_num
    rw [binChunks_cons]
    norm_num
    rw [binChunks_cons]
    norm_num [binChunks_nil]

/-- C6 witness: the binning theorem applied to the concrete five-day series
with bin size 2. -/
theorem binnedTotals_witness : binnedTotals [1, 2, 3, 4, 5] 2 = [3, 7, 5] :=
  (binnedTotals_partition [1, 2, 3, 4, 5] 2 (by decide)).2.2.2.2

/-! ### Claim C8 -/

/-- The operations that move the playback index of KDEMap.svelte: an animation
tick while playing (advance by the PLAY_SPEED increment 1.5, wrapping to 0 on
reaching or passing maxIndex), the two arrow keys (one step, clamped to the
bounds), and a timeline seek (the pointer position over the track width,
clamped to [0, 1] and scaled to the index range). -/
inductive PlaybackOp where
  | tick : PlaybackOp
  | arrowLeft : PlaybackOp
  | arrowRight : PlaybackOp
  | timelineSeek : ℚ → PlaybackOp

/-- `maxIndex = Math.max(0, dates.length - 1)` of KDEMap.svelte. -/
def maxIndexOf (seriesLength : ℕ) : ℚ := max 0 ((seriesLength : ℚ) - 1)

/-- One playback-controller step of KDEMap.svelte acting on currentIndex. -/
def applyPlaybackOp (maxIndex currentIndex : ℚ) : PlaybackOp → ℚ
  | .tick =>
    let next := currentIndex + 3 / 2
    if maxIndex ≤ next then 0 else next
  | .arrowLeft => max 0 (currentIndex - 1)
  | .arrowRight => min maxIndex (currentIndex + 1)
  | .timelineSeek pointerFrac => max 0 (min 1 pointerFrac) * maxIndex

/-- A whole interaction history folded over the playback state. -/
def runPlayback (maxIndex : ℚ) (ops : List PlaybackOp) (start : ℚ) : ℚ :=
  ops.foldl (applyPlaybackOp maxIndex) start

theorem applyPlaybackOp_mem {maxIndex currentIndex : ℚ} (hM : 0 ≤ maxIndex)
    (h0 : 0 ≤ currentIndex) (h1 : currentIndex ≤ maxIndex) (op : PlaybackOp) :
    0 ≤ applyPlaybackOp maxIndex currentIndex op ∧
      applyPlaybackOp maxIndex currentIndex op ≤ maxIndex := by
  cases op with
  | tick =>
    simp only [applyPlaybackOp]
    split
    · exact ⟨le_refl 0, hM⟩
    · constructor
      · linarith
      · linarith [not_le.mp (by assumption)]
  | arrowLeft =>
    exact ⟨le_max_left _ _, max_le hM (by linarith)⟩
  | arrowRight =>
    exact ⟨le_min hM (by linarith), min_le_left _ _⟩
  | timelineSeek pointerFrac =>
    constructor
    · exact mul_nonneg (le_max_left _ _) hM
    · calc max 0 (min 1 pointerFrac) * maxIndex
          ≤ 1 * maxIndex := by
            refine mul_le_mul_of_nonneg_right ?_ hM
            exact max_le (by norm_num) (min_le_left _ _)
      _ = maxIndex := one_mul _

/-- C8: over every sequence of playback operations (animation ticks with the
wrap to 0, arrow-key steps clamped to the bounds, and timeline seeks mapped
from the clamped pointer fraction), the playback index of KDEMap.svelte stays
within [0, maxIndex], and for a non-empty series maxIndex is the series
length minus 1. -/
theorem playback_index_invariant (seriesLength : ℕ) (ops : List PlaybackOp)
    (start : ℚ) (hs0 : 0 ≤ start) (hs1 : start ≤ maxIndexOf seriesLength) :
    (1 ≤ seriesLength → maxIndexOf seriesLength = (seriesLength : ℚ) - 1) ∧
    (0 ≤ runPlayback (maxIndexOf seriesLength) ops start ∧
      runPlayback (maxIndexOf seriesLength) ops start ≤ maxIndexOf seriesLength) := by
  constructor
  · intro h1
    rw [maxIndexOf, max_eq_right]
    have : (1 : ℚ) ≤ (seriesLength : ℚ) := by exact_mod_cast h1
    linarith
  · have hM : 0 ≤ maxIndexOf seriesLength := le_max_left _ _
    rw [runPlayback]
    induction ops generalizing start with
    | nil => exact ⟨hs0, hs1⟩
    | cons op rest ih =>
      rw [List.foldl_cons]
      obtain ⟨h0, h1⟩ := applyPlaybackOp_mem hM hs0 hs1 op
      exact ih _ h0 h1

/-- C8 witness: the invariant theorem applied to a ten-day series and a
concrete interaction history starting at index 0. -/
theorem playback_witness :
    0 ≤ runPlayback (maxIndexOf 10)
        [PlaybackOp.tick, PlaybackOp.arrowRight, PlaybackOp.timelineSeek (7 / 3),
          PlaybackOp.arrowLeft, PlaybackOp.tick] 0 ∧
      runPlayback (maxIndexOf 10)
        [PlaybackOp.tick, PlaybackOp.arrowRight, PlaybackOp.timelineSeek (7 / 3),
          PlaybackOp.arrowLeft, PlaybackOp.tick] 0 ≤ maxIndexOf 10 :=
  (playback_index_invariant 10
    [PlaybackOp.tick, PlaybackOp.arrowRight, PlaybackOp.timelineSeek (7 / 3),
      PlaybackOp.arrowLeft, PlaybackOp.tick] 0 (le_refl 0)
    (le_max_left 0 _)).2

/-! ### Claim C3: the KDEMap projection -/

/-- A logger position as held by the data store. -/
structure Logger where
  name : String
  latitude : ℚ
  longitude : ℚ

/-- The padded geographic bounding box of KDEMap.svelte. -/
structure GeoBounds where
  minLat : ℚ
  maxLat : ℚ
  minLon : ℚ
  maxLon : ℚ

/-- Projection parameters computed by updateProjection. -/
structure ProjectionParams where
  offsetX : ℚ
  offsetY : ℚ
  scale : ℚ

/-- `Math.min(...xs)` over a non-empty spread; the source guards the empty
logger list separately. -/
def listMinQ : List ℚ → ℚ
  | [] => 0
  | x :: xs => xs.foldl min x

/-- `Math.max(...xs)` over a non-empty spread. -/
def listMaxQ : List ℚ → ℚ
  | [] => 0
  | x :: xs => xs.foldl max x

/-- The geoBounds value of KDEMap.svelte: the tight logger envelope expanded by
15 percent of each raw range on each side, and the all-zero box when there are
no loggers. -/
def geoBoundsOf (loggers : List Logger) : GeoBounds :=
  if loggers.length = 0 then ⟨0, 0, 0, 0⟩
  else
    let lats := loggers.map Logger.latitude
    let lons := loggers.map Logger.longitude
    let minLat := listMinQ lats
    let maxLat := listMaxQ lats
    let minLon := listMinQ lons
    let maxLon := listMaxQ lons
    let latPad := (maxLat - minLat) * (3 / 20)
    let lonPad := (maxLon - minLon) * (3 / 20)
    ⟨minLat - latPad, maxLat + latPad, minLon - lonPad, maxLon + lonPad⟩

/-- The updateProjection function of KDEMap.svelte.  The argument
latCorrectionFactor stands for `Math.cos(centerLat * PI / 180)` of the source,
which is positive for any center latitude strictly between the poles; every
statement below holds for an arbitrary positive value of it. -/
def updateProjection (mapWidth mapHeight : ℚ) (b : GeoBounds)
    (latCorrectionFactor : ℚ) : ProjectionParams :=
  let lonRange := b.maxLon - b.minLon
  let latRange := b.maxLat - b.minLat
  let effectiveLonRange := lonRange * latCorrectionFactor
  let scaleX := mapWidth / effectiveLonRange
  let scaleY := mapHeight / latRange
  let scale := min scaleX scaleY * (11 / 10)
  let projectedWidth := effectiveLonRange * scale
  let projectedHeight := latRange * scale
  ⟨(mapWidth - projectedWidth) / 2, (mapHeight - projectedHeight) / 2, scale⟩

/-- The x coordinate assigned to a longitude by updateProjection. -/
def projX (p : ProjectionParams) (b : GeoBounds) (latCorrectionFactor lon : ℚ) : ℚ :=
  p.offsetX + (lon - b.minLon) * latCorrectionFactor * p.scale

/-- The y coordinate assigned to a latitude by updateProjection. -/
def projY (p : ProjectionParams) (b : GeoBounds) (lat : ℚ) : ℚ :=
  p.offsetY + (b.maxLat - lat) * p.scale

theorem foldl_min_init_le (l : List ℚ) (a : ℚ) : l.foldl min a ≤ a := by
  induction l generalizing a with
  | nil => simp
  | cons x xs ih => exact le_trans (ih _) (min_le_left a x)

theorem foldl_min_le_of_mem {l : List ℚ} {x : ℚ} (h : x ∈ l) (a : ℚ) :
    l.foldl min a ≤ x := by
  induction l generalizing a with
  | nil => cases h
  | cons y ys ih =>
    cases h with
    | head => exact le_trans (foldl_min_init_le ys _) (min_le_right a x)
    | tail _ hm => exact ih hm _

theorem listMinQ_le_of_mem {l : List ℚ} {x : ℚ} (h : x ∈ l) : listMinQ l ≤ x := by
  cases l with
  | nil => cases h
  | cons y ys =>
    cases h with
    | head => exact foldl_min_init_le ys x
    | tail _ hm => exact foldl_min_le_of_mem hm y

theorem le_listMaxQ_of_mem {l : List ℚ} {x : ℚ} (h : x ∈ l) : x ≤ listMaxQ l := by
  cases l with
  | nil => cases h
  | cons y ys =>
    cases h with
    | head => exact foldl_max_init_le ys x
    | tail _ hm => exact le_foldl_max_of_mem hm y

theorem projX_bounds (mW mH c : ℚ) (b : GeoBounds) (lon : ℚ)
    (hW : 0 < mW) (hH : 0 < mH) (hc : 0 < c)
    (hbLon : 0 < b.maxLon - b.minLon) (hbLat : 0 < b.maxLat - b.minLat)
    (hl1 : 3 / 26 * (b.maxLon - b.minLon) ≤ lon - b.minLon)
    (hl2 : lon - b.minLon ≤ 23 / 26 * (b.maxLon - b.minLon)) :
    0 ≤ projX (updateProjection mW mH b c) b c lon ∧
      projX (updateProjection mW mH b c) b c lon ≤ mW := by
  simp only [projX, updateProjection]
  set R := b.maxLon - b.minLon with hR
  set T := b.maxLat - b.minLat with hT
  set s := min (mW / (R * c)) (mH / T) * (11 / 10) with hs
  have hRc : 0 < R * c := mul_pos hbLon hc
  have hspos : 0 < s := by
    rw [hs]
    have h1 : 0 < min (mW / (R * c)) (mH / T) :=
      lt_min (div_pos hW hRc) (div_pos hH hbLat)
    positivity
  have hkey : R * c * s ≤ 11 / 10 * mW := by
    rw [hs]
    have h1 : min (mW / (R * c)) (mH / T) ≤ mW / (R * c) := min_le_left _ _
    have h2 : R * c * (min (mW / (R * c)) (mH / T) * (11 / 10))
        ≤ R * c * (mW / (R * c) * (11 / 10)) := by
      refine mul_le_mul_of_nonneg_left ?_ (le_of_lt hRc)
      exact mul_le_mul_of_nonneg_right h1 (by norm_num)
    have h3 : R * c * (mW / (R * c) * (11 / 10)) = 11 / 10 * mW := by
      field_simp
      ring
    linarith
  have hcs : 0 ≤ c * s := mul_nonneg (le_of_lt hc) (le_of_lt hspos)
  have hu1 : 3 / 26 * R * (c * s) ≤ (lon - b.minLon) * (c * s) :=
    mul_le_mul_of_nonneg_right hl1 hcs
  have hu2 : (lon - b.minLon) * (c * s) ≤ 23 / 26 * R * (c * s) :=
    mul_le_mul_of_nonneg_right hl2 hcs
  constructor
  · nlinarith [hkey, hu1, hW]
  · nlinarith [hkey, hu2, hW]

theorem projY_bounds (mW mH c : ℚ) (b : GeoBounds) (lat : ℚ)
    (hW : 0 < mW) (hH : 0 < mH) (hc : 0 < c)
    (hbLon : 0 < b.maxLon - b.minLon) (hbLat : 0 < b.maxLat - b.minLat)
    (hl1 : 3 / 26 * (b.maxLat - b.minLat) ≤ b.maxLat - lat)
    (hl2 : b.maxLat - lat ≤ 23 / 26 * (b.maxLat - b.minLat)) :
    0 ≤ projY (updateProjection mW mH b c) b lat ∧
      projY (updateProjection mW mH b c) b lat ≤ mH := by
  simp only [projY, updateProjection]
  set R := b.maxLon - b.minLon with hR
  set T := b.maxLat - b.minLat with hT
  set s := min (mW / (R * c)) (mH / T) * (11 / 10) with hs
  have hRc : 0 < R * c := mul_pos hbLon hc
  have hspos : 0 < s := by
    rw [hs]
    have h1 : 0 < min (mW / (R * c)) (mH / T) :=
      lt_min (div_pos hW hRc) (div_pos hH hbLat)
    positivity
  have hkey : T * s ≤ 11 / 10 * mH := by
    rw [hs]
    have h1 : min (mW / (R * c)) (mH / T) ≤ mH / T := min_le_right _ _
    have h2 : T * (min (mW / (R * c)) (mH / T) * (11 / 10))
        ≤ T * (mH / T * (11 / 10)) := by
      refine mul_le_mul_of_nonneg_left ?_ (le_of_lt hbLat)
      exact mul_le_mul_of_nonneg_right h1 (by norm_num)
    have h3 : T * (mH / T * (11 / 10)) = 11 / 10 * mH := by
      field_simp
      ring
    linarith
  have hu1 : 3 / 26 * T * s ≤ (b.maxLat - lat) * s :=
    mul_le_mul_of_nonneg_right hl1 (le_of_lt hspos)
  have hu2 : (b.maxLat - lat) * s ≤ 23 / 26 * T * s :=
    mul_le_mul_of_nonneg_right hl2 (le_of_lt hspos)
  constructor
  · nlinarith [hkey, hu1, hH]
  · nlinarith [hkey, hu2, hH]

/-- C3: with a positive viewport, a positive latitude-correction factor (the
cosine of the center latitude in the source), and non-degenerate logger
envelopes, updateProjection of KDEMap.svelte scales by the axis-limiting
factor times the 1.1 zoom margin, centers the projected area with equal
margins on both sides of each axis, and places every logger position inside
[0, mapWidth] x [0, mapHeight]. -/
theorem projection_fits_viewport (loggers : List Logger)
    (mapWidth mapHeight latCorrectionFactor : ℚ)
    (hW : 0 < mapWidth) (hH : 0 < mapHeight) (hc : 0 < latCorrectionFactor)
    (hLat : 0 < listMaxQ (loggers.map Logger.latitude)
      - listMinQ (loggers.map Logger.latitude))
    (hLon : 0 < listMaxQ (loggers.map Logger.longitude)
      - listMinQ (loggers.map Logger.longitude)) :
    ((updateProjection mapWidth mapHeight (geoBoundsOf loggers) latCorrectionFactor).scale
        = min (mapWidth / (((geoBoundsOf loggers).maxLon
              - (geoBoundsOf loggers).minLon) * latCorrectionFactor))
            (mapHeight / ((geoBoundsOf loggers).maxLat - (geoBoundsOf loggers).minLat))
          * (11 / 10)) ∧
    (projX (updateProjection mapWidth mapHeight (geoBoundsOf loggers) latCorrectionFactor)
        (geoBoundsOf loggers) latCorrectionFactor (geoBoundsOf loggers).minLon
      = mapWidth - projX (updateProjection mapWidth mapHeight (geoBoundsOf loggers)
          latCorrectionFactor) (geoBoundsOf loggers) latCorrectionFactor
          (geoBoundsOf loggers).maxLon) ∧
    (projY (updateProjection mapWidth mapHeight (geoBoundsOf loggers) latCorrectionFactor)
        (geoBoundsOf loggers) (geoBoundsOf loggers).maxLat
      = mapHeight - projY (updateProjection mapWidth mapHeight (geoBoundsOf loggers)
          latCorrectionFactor) (geoBoundsOf loggers) (geoBoundsOf loggers).minLat) ∧
    (∀ lg ∈ loggers,
      (0 ≤ projX (updateProjection mapWidth mapHeight (geoBoundsOf loggers)
            latCorrectionFactor) (geoBoundsOf loggers) latCorrectionFactor lg.longitude ∧
        projX (updateProjection mapWidth mapHeight (geoBoundsOf loggers)
            latCorrectionFactor) (geoBoundsOf loggers) latCorrectionFactor lg.longitude
          ≤ mapWidth) ∧
      (0 ≤ projY (updateProjection mapWidth mapHeight (geoBoundsOf loggers)
            latCorrectionFactor) (geoBoundsOf loggers) lg.latitude ∧
        projY (updateProjection mapWidth mapHeight (geoBoundsOf loggers)
            latCorrectionFactor) (geoBoundsOf loggers) lg.latitude ≤ mapHeight)) := by
  have hne : ¬ loggers.length = 0 := by
    intro h
    rw [List.length_eq_zero] at h
    subst h
    simp [listMinQ, listMaxQ] at hLat
  have hb : geoBoundsOf loggers =
      ⟨listMinQ (loggers.map Logger.latitude)
          - (listMaxQ (loggers.map Logger.latitude)
              - listMinQ (loggers.map Logger.latitude)) * (3 / 20),
        listMaxQ (loggers.map Logger.latitude)
          + (listMaxQ (loggers.map Logger.latitude)
              - listMinQ (loggers.map Logger.latitude)) * (3 / 20),
        listMinQ (loggers.map Logger.longitude)
          - (listMaxQ (loggers.map Logger.longitude)
              - listMinQ (loggers.map Logger.longitude)) * (3 / 20),
        listMaxQ (loggers.map Logger.longitude)
          + (listMaxQ (loggers.map Logger.longitude)
              - listMinQ (loggers.map Logger.longitude)) * (3 / 20)⟩ := by
    rw [geoBoundsOf, if_neg hne]
  refine ⟨rfl, by simp only [projX, updateProjection]; ring,
    by simp only [projY, updateProjection]; ring, ?_⟩
  intro lg hlg
  have hlon1 : listMinQ (loggers.map Logger.longitude) ≤ lg.longitude :=
    listMinQ_le_of_mem (List.mem_map_of_mem Logger.longitude hlg)
  have hlon2 : lg.longitude ≤ listMaxQ (loggers.map Logger.longitude) :=
    le_listMaxQ_of_mem (List.mem_map_of_mem Logger.longitude hlg)
  have hlat1 : listMinQ (loggers.map Logger.latitude) ≤ lg.latitude :=
    listMinQ_le_of_mem (List.mem_map_of_mem Logger.latitude hlg)
  have hlat2 : lg.latitude ≤ listMaxQ (loggers.map Logger.latitude) :=
    le_listMaxQ_of_mem (List.mem_map_of_mem Logger.latitude hlg)
  have hbLon : 0 < (geoBoundsOf loggers).maxLon - (geoBoundsOf loggers).minLon := by
    rw [hb]
    dsimp only
    linarith
  have hbLat : 0 < (geoBoundsOf loggers).maxLat - (geoBoundsOf loggers).minLat := by
    rw [hb]
    dsimp only
    linarith
  constructor
  · refine projX_bounds mapWidth mapHeight latCorrectionFactor (geoBoundsOf loggers)
      lg.longitude hW hH hc hbLon hbLat ?_ ?_
    · rw [hb]
      dsimp only
      linarith
    · rw [hb]
      dsimp only
      linarith
  · refine projY_bounds mapWidth mapHeight latCorrectionFactor (geoBoundsOf loggers)
      lg.latitude hW hH hc hbLon hbLat ?_ ?_
    · rw [hb]
      dsimp only
      linarith
    · rw [hb]
      dsimp only
      linarith

/-- C3 witness: the projection theorem applied to two concrete loggers in a
100 by 100 viewport with correction factor 1. -/
theorem projection_witness :
    0 ≤ projX (updateProjection 100 100 (geoBoundsOf [⟨"a", 0, 0⟩, ⟨"b", 1, 1⟩]) 1)
        (geoBoundsOf [⟨"a", 0, 0⟩, ⟨"b", 1, 1⟩]) 1 (Logger.longitude ⟨"a", 0, 0⟩) :=
  (((projection_fits_viewport [⟨"a", 0, 0⟩, ⟨"b", 1, 1⟩] 100 100 1 (by norm_num)
      (by norm_num) (by norm_num)
      (by norm_num [listMaxQ, listMinQ, List.foldl])
      (by norm_num [listMaxQ, listMinQ, List.foldl])).2.2.2
    ⟨"a", 0, 0⟩ (List.mem_cons_self _ _)).1).1

/-! ### Claim C4: the KDE density field -/

/-- A weighted screen-space point source of renderKDEToCanvas. -/
structure SourcePoint where
  x : ℚ
  y : ℚ
  weight : ℚ

/-- `bandwidth * bandwidth * 2`, the kernel denominator of renderKDEToCanvas. -/
def bwSq2 (bandwidth : ℚ) : ℚ := bandwidth * bandwidth * 2

/-- The density accumulated at one pixel by renderKDEToCanvas: the sum over
the sources of weight times the Gaussian kernel of the squared distance.  The
function kexp stands for Math.exp of the source; every statement below holds
for an arbitrary kernel function. -/
def densityAt (kexp : ℚ → ℚ) (bw2 : ℚ) (sources : List SourcePoint)
    (px py : ℚ) : ℚ :=
  (sources.map (fun s =>
    s.weight * kexp (-((px - s.x) * (px - s.x) + (py - s.y) * (py - s.y)) / bw2))).sum

/-- The pixel grid of renderKDEToCanvas, row-major like the double loop. -/
def gridCells (width height : ℕ) : List (ℕ × ℕ) :=
  ((List.range height).map (fun py => (List.range width).map (fun px => (px, py)))).flatten

/-- The running maximum density of renderKDEToCanvas, starting at 0. -/
def maxDensity (kexp : ℚ → ℚ) (bw2 : ℚ) (sources : List SourcePoint)
    (width height : ℕ) : ℚ :=
  (gridCells width height).foldl
    (fun m cell => max m (densityAt kexp bw2 sources cell.1 cell.2)) 0

/-- The normalized density `densityData[i] / maxDensity` that renderKDEToCanvas
passes to the color function when maxDensity is positive. -/
def normalizedDensity (kexp : ℚ → ℚ) (bw2 : ℚ) (sources : List SourcePoint)
    (width height : ℕ) (px py : ℚ) : ℚ :=
  densityAt kexp bw2 sources px py / maxDensity kexp bw2 sources width height

/-- Multiplying every source weight by a constant. -/
def scaleWeights (k : ℚ) (sources : List SourcePoint) : List SourcePoint :=
  sources.map (fun s => ⟨s.x, s.y, k * s.weight⟩)

theorem densityAt_scale (kexp : ℚ → ℚ) (bw2 k : ℚ) (sources : List SourcePoint)
    (px py : ℚ) :
    densityAt kexp bw2 (scaleWeights k sources) px py
      = k * densityAt kexp bw2 sources px py := by
  induction sources with
  | nil => simp [densityAt, scaleWeights]
  | cons s ss ih =>
    simp only [densityAt, scaleWeights, List.map_cons, List.sum_cons] at ih ⊢
    rw [ih]
    ring

theorem foldl_max_f_init_le {α : Type} (f : α → ℚ) (l : List α) (a : ℚ) :
    a ≤ l.foldl (fun m x => max m (f x)) a := by
  induction l generalizing a with
  | nil => simp
  | cons x xs ih => exact le_trans (le_max_left a (f x)) (ih _)

theorem le_foldl_max_f_of_mem {α : Type} (f : α → ℚ) {l : List α} {c : α}
    (h : c ∈ l) (a : ℚ) : f c ≤ l.foldl (fun m x => max m (f x)) a := by
  induction l generalizing a with
  | nil => cases h
  | cons x xs ih =>
    cases h with
    | head => exact le_trans (le_max_right a (f c)) (foldl_max_f_init_le f xs _)
    | tail _ hm => exact ih hm _

theorem foldl_max_mul_nonneg {α : Type} (k : ℚ) (hk : 0 ≤ k) (f : α → ℚ)
    (cells : List α) : ∀ a : ℚ,
    cells.foldl (fun m c => max m (k * f c)) (k * a)
      = k * cells.foldl (fun m c => max m (f c)) a := by
  induction cells with
  | nil => intro a; rfl
  | cons c cs ih =>
    intro a
    simp only [List.foldl_cons]
    rw [← mul_max_of_nonneg _ _ hk, ih]

theorem maxDensity_scale (kexp : ℚ → ℚ) (bw2 k : ℚ) (hk : 0 ≤ k)
    (sources : List SourcePoint) (width height : ℕ) :
    maxDensity kexp bw2 (scaleWeights k sources) width height
      = k * maxDensity kexp bw2 sources width height := by
  unfold maxDensity
  simp only [densityAt_scale]
  have h := foldl_max_mul_nonneg k hk
    (fun cell => densityAt kexp bw2 sources cell.1 cell.2) (gridCells width height) 0
  rw [mul_zero] at h
  exact h

/-- C4: multiplying every source weight by a positive constant k leaves the
max-normalized density field of renderKDEToCanvas unchanged at every pixel,
whenever some grid cell has positive density (the condition under which the
source normalizes at all); both fields then have a positive maximum. -/
theorem kde_normalization_invariant (kexp : ℚ → ℚ) (bandwidth k : ℚ)
    (sources : List SourcePoint) (width height : ℕ) (hk : 0 < k)
    (hpos : ∃ cell ∈ gridCells width height,
      0 < densityAt kexp (bwSq2 bandwidth) sources cell.1 cell.2) :
    0 < maxDensity kexp (bwSq2 bandwidth) sources width height ∧
    0 < maxDensity kexp (bwSq2 bandwidth) (scaleWeights k sources) width height ∧
    ∀ px py : ℚ,
      normalizedDensity kexp (bwSq2 bandwidth) (scaleWeights k sources)
          width height px py
        = normalizedDensity kexp (bwSq2 bandwidth) sources width height px py := by
  obtain ⟨cell, hcell, hd⟩ := hpos
  have hM : 0 < maxDensity kexp (bwSq2 bandwidth) sources width height :=
    lt_of_lt_of_le hd (le_foldl_max_f_of_mem _ hcell 0)
  refine ⟨hM, ?_, ?_⟩
  · rw [maxDensity_scale kexp (bwSq2 bandwidth) k (le_of_lt hk)]
    exact mul_pos hk hM
  · intro px py
    unfold normalizedDensity
    rw [densityAt_scale, maxDensity_scale kexp (bwSq2 bandwidth) k (le_of_lt hk),
      mul_div_mul_left _ _ (ne_of_gt hk)]

/-- C4 witness: the invariance theorem applied to a constant kernel, one unit
source, a one-pixel grid, and the scale factor 2. -/
theorem kde_normalization_witness :
    0 < maxDensity (fun _ => 1) (bwSq2 1) [⟨0, 0, 1⟩] 1 1 ∧
    normalizedDensity (fun _ => 1) (bwSq2 1) (scaleWeights 2 [⟨0, 0, 1⟩]) 1 1 0 0
      = normalizedDensity (fun _ => 1) (bwSq2 1) [⟨0, 0, 1⟩] 1 1 0 0 := by
  have h := kde_normalization_invariant (fun _ => 1) 1 2 [⟨0, 0, 1⟩] 1 1
    (by norm_num)
    ⟨(0, 0), by simp [gridCells], by norm_num [densityAt]⟩
  exact ⟨h.1, h.2.2 0 0⟩

/-! ### Claim C5: weekly aggregation -/

/-- One weekly aggregate of kdeService.ts.  Dates are modeled as whole days
since the epoch (1970-01-01, a Thursday), the value underlying the source UTC
Date objects; the formatted weekLabel is presentation only and not modeled. -/
structure WeeklyDetectionData where
  weekStart : ℤ
  weekEnd : ℤ
  loggers : List (String × ℚ)
  totalDetections : ℚ
  maxLoggerDetections : ℚ

/-- getWeekStart of kdeService.ts: for day number d, `(d + 4) % 7` is the UTC
weekday (0 = Sunday), and the source shifts the date by `day === 0 ? -6 : 1`
minus the weekday to reach the preceding Monday. -/
def getWeekStart (d : ℤ) : ℤ :=
  let day := (d + 4) % 7
  d - day + (if day = 0 then -6 else 1)

/-- `loggers.get(name) ?? 0` on the week entry. -/
def assocGetQ (m : List (String × ℚ)) (k : String) : ℚ :=
  match m.find? (fun p => p.1 == k) with
  | some p => p.2
  | none => 0

/-- `loggers.set(name, v)`: replace the first binding or append a new one. -/
def assocSetQ : List (String × ℚ) → String → ℚ → List (String × ℚ)
  | [], k, v => [(k, v)]
  | p :: ps, k, v => if p.1 = k then (k, v) :: ps else p :: assocSetQ ps k v

/-- `weeklyMap.get(weekKey)`. -/
def weekFind (m : List (ℤ × WeeklyDetectionData)) (k : ℤ) :
    Option WeeklyDetectionData :=
  match m.find? (fun p => p.1 == k) with
  | some p => some p.2
  | none => none

/-- `weeklyMap.set(weekKey, v)`: replace the binding or append it in insertion
order, as a JS Map does. -/
def weekSet : List (ℤ × WeeklyDetectionData) → ℤ → WeeklyDetectionData →
    List (ℤ × WeeklyDetectionData)
  | [], k, v => [(k, v)]
  | p :: ps, k, v => if p.1 = k then (k, v) :: ps else p :: weekSet ps k v

/-- The inner loop body of aggregateByWeek: one site entry on day i folded
into the week entry, skipped when the logger has no known position. -/
def addLoggerDay (positions : List String) (i : ℕ) (w : WeeklyDetectionData)
    (entry : String × List ℚ) : WeeklyDetectionData :=
  if entry.1 ∈ positions then
    let value := entry.2.getD i 0
    let current := assocGetQ w.loggers entry.1
    let newValue := current + value
    { w with
      loggers := assocSetQ w.loggers entry.1 newValue,
      totalDetections := w.totalDetections + value,
      maxLoggerDetections := max w.maxLoggerDetections newValue }
  else w

/-- The fresh week entry created by aggregateByWeek on first sight of a week. -/
def freshWeek (ws : ℤ) : WeeklyDetectionData :=
  ⟨ws, ws + 6, [], 0, 0⟩

/-- One iteration of the outer date loop of aggregateByWeek: create the week
entry if missing, then fold every site entry of day i into it. -/
def processDay (sites : Sites) (positions : List String)
    (m : List (ℤ × WeeklyDetectionData)) (date : ℤ) (i : ℕ) :
    List (ℤ × WeeklyDetectionData) :=
  let ws := getWeekStart date
  let w0 := (weekFind m ws).getD (freshWeek ws)
  weekSet m ws (sites.foldl (addLoggerDay positions i) w0)

/-- aggregateByWeek of kdeService.ts over day numbers: fold the dates in order
into the weekly map, then sort the entries by week start. -/
def aggregateByWeek (dates : List ℤ) (sites : Sites)
    (positions : List String) : List WeeklyDetectionData :=
  ((dates.enum.foldl (fun m p => processDay sites positions m p.2 p.1) []).map
    Prod.snd).mergeSort (fun a b => decide (a.weekStart ≤ b.weekStart))

/-- The contribution of day i to the week totals: every positioned site entry
read at index i, missing entries as 0. -/
def daySum (sites : Sites) (positions : List String) (i : ℕ) : ℚ :=
  (sites.map (fun p => if p.1 ∈ positions then p.2.getD i 0 else 0)).sum

/-- The sum of totalDetections over the weekly map. -/
def mapTotal (m : List (ℤ × WeeklyDetectionData)) : ℚ :=
  (m.map (fun p => p.2.totalDetections)).sum

theorem foldl_addLoggerDay_total (positions : List String) (i : ℕ) :
    ∀ (l : Sites) (w : WeeklyDetectionData),
      (l.foldl (addLoggerDay positions i) w).totalDetections
        = w.totalDetections + daySum l positions i := by
  intro l
  induction l with
  | nil =>
    intro w
    simp [daySum]
  | cons p ps ih =>
    intro w
    simp only [List.foldl_cons]
    rw [ih (addLoggerDay positions i w p)]
    simp only [daySum, List.map_cons, List.sum_cons]
    unfold addLoggerDay
    split
    case isTrue h =>
      dsimp only
      ring
    case isFalse h =>
      ring

theorem mapTotal_weekSet (k : ℤ) (v : WeeklyDetectionData) :
    ∀ m : List (ℤ × WeeklyDetectionData),
      mapTotal (weekSet m k v)
        = mapTotal m + v.totalDetections
            - ((weekFind m k).getD (freshWeek k)).totalDetections := by
  intro m
  induction m with
  | nil =>
    simp [weekSet, mapTotal, weekFind, freshWeek]
  | cons p ps ih =>
    obtain ⟨pk, pv⟩ := p
    by_cases h : pk = k
    · subst h
      have hws : weekSet ((pk, pv) :: ps) pk v = (pk, v) :: ps := by
        simp [weekSet]
      have hwf : weekFind ((pk, pv) :: ps) pk = some pv := by
        rw [weekFind, List.find?_cons_of_pos _ (by simp)]
      rw [hws, hwf]
      simp only [mapTotal, List.map_cons, List.sum_cons, Option.getD_some]
      ring
    · have hws : weekSet ((pk, pv) :: ps) k v = (pk, pv) :: weekSet ps k v := by
        simp [weekSet, h]
      have hwf : weekFind ((pk, pv) :: ps) k = weekFind ps k := by
        rw [weekFind, weekFind, List.find?_cons_of_neg _ (by simp [h])]
      rw [hws, hwf]
      simp only [mapTotal, List.map_cons, List.sum_cons]
      simp only [mapTotal] at ih
      rw [ih]
      ring

theorem mapTotal_processDay (sites : Sites) (positions : List String)
    (m : List (ℤ × WeeklyDetectionData)) (date : ℤ) (i : ℕ) :
    mapTotal (processDay sites positions m date i)
      = mapTotal m + daySum sites positions i := by
  unfold processDay
  rw [mapTotal_weekSet, foldl_addLoggerDay_total]
  ring

theorem mapTotal_foldDays (sites : Sites) (positions : List String) :
    ∀ (l : List (ℕ × ℤ)) (m : List (ℤ × WeeklyDetectionData)),
      mapTotal (l.foldl (fun acc p => processDay sites positions acc p.2 p.1) m)
        = mapTotal m + (l.map (fun p => daySum sites positions p.1)).sum := by
  intro l
  induction l with
  | nil =>
    intro m
    simp
  | cons p ps ih =>
    intro m
    simp only [List.foldl_cons, List.map_cons, List.sum_cons]
    rw [ih, mapTotal_processDay]
    ring

theorem sum_map_add {β : Type} (l : List β) (g h : β → ℚ) :
    (l.map (fun b => g b + h b)).sum = (l.map g).sum + (l.map h).sum := by
  induction l with
  | nil => simp
  | cons x xs ih =>
    simp only [List.map_cons, List.sum_cons]
    rw [ih]
    ring

theorem sum_map_sum_comm {α β : Type} (l1 : List α) (l2 : List β) (f : α → β → ℚ) :
    (l1.map (fun a => (l2.map (f a)).sum)).sum
      = (l2.map (fun b => (l1.map (fun a => f a b)).sum)).sum := by
  induction l1 with
  | nil =>
    simp only [List.map_nil, List.sum_nil]
    induction l2 with
    | nil => simp
    | cons y ys ih2 => simp_all
  | cons a as ih =>
    simp only [List.map_cons, List.sum_cons]
    rw [ih, sum_map_add l2 (fun b => f a b)
      (fun b => (List.map (fun a' => f a' b) as).sum)]

/-- C5: the sum over all weeks of totalDetections in the output of
aggregateByWeek equals the sum, over all days and all site entries whose
logger has a known position, of that entry's daily count; missing array
entries count as 0, and loggers absent from the position set contribute to
neither side. -/
theorem aggregate_conservation (dates : List ℤ) (sites : Sites)
    (positions : List String) :
    ((aggregateByWeek dates sites positions).map
        (fun w => w.totalDetections)).sum
      = (sites.map (fun p =>
          if p.1 ∈ positions
          then ((List.range dates.length).map (fun i => p.2.getD i 0)).sum
          else 0)).sum := by
  unfold aggregateByWeek
  have hperm := List.mergeSort_perm
    ((dates.enum.foldl (fun m p => processDay sites positions m p.2 p.1) []).map
      Prod.snd) (fun a b => decide (a.weekStart ≤ b.weekStart))
  rw [(hperm.map (fun w => w.totalDetections)).sum_eq, List.map_map]
  have hmt : ((dates.enum.foldl (fun m p => processDay sites positions m p.2 p.1)
      []).map ((fun w => w.totalDetections) ∘ Prod.snd)).sum
      = mapTotal (dates.enum.foldl (fun m p => processDay sites positions m p.2 p.1) []) := rfl
  rw [hmt, mapTotal_foldDays]
  have hzero : mapTotal [] = 0 := rfl
  rw [hzero, zero_add]
  have henum : (dates.enum.map (fun p => daySum sites positions p.1)).sum
      = ((List.range dates.length).map (fun i => daySum sites positions i)).sum := by
    have h1 : (fun p : ℕ × ℤ => daySum sites positions p.1)
        = (fun i => daySum sites positions i) ∘ Prod.fst := rfl
    rw [h1, ← List.map_map, List.enum_map_fst]
  rw [henum]
  unfold daySum
  rw [sum_map_sum_comm]
  congr 1
  apply List.map_congr_left
  intro p _
  by_cases h : p.1 ∈ positions
  · simp [h]
  · simp [h]

/-! ### Claim C10: precomputeMapStats mutates no pre-existing array -/

/-- A heap of JS arrays: cell id maps to contents.  The input arrays of
precomputeMapStats (dates, mean, every per-site counts array) and the stored
per-day value vectors are cells of such a heap; every other quantity the
function handles is a number and is passed by value. -/
abbrev ArrayHeap : Type := List (List ℚ)

/-- Reading the array behind a reference. -/
def readCell (h : ArrayHeap) (r : ℕ) : List ℚ := h.getD r []

/-- Overwriting the array behind a reference. -/
def writeCell (h : ArrayHeap) (r : ℕ) (v : List ℚ) : ArrayHeap := h.set r v

/-- Allocating a fresh array and returning its reference. -/
def allocCell (h : ArrayHeap) (v : List ℚ) : ArrayHeap × ℕ := (h ++ [v], h.length)

/-- `[...values]`: a fresh array with the same contents as the receiver. -/
def spreadCopy (h : ArrayHeap) (r : ℕ) : ArrayHeap × ℕ := allocCell h (readCell h r)

/-- `arr.sort((a, b) => a - b)`: sorts the receiver in place and returns its
reference.  This is the only receiver-mutating array call anywhere in
precomputeMapStats. -/
def sortCall (h : ArrayHeap) (r : ℕ) : ArrayHeap × ℕ :=
  (writeCell h r (sortedAsc (readCell h r)), r)

/-- The Gini step of precomputeMapStats on the stored day vector behind `r`:
`const sorted = [...values].sort(..)` followed by the coefficient and the
floor clamp.  The spread copy is allocated on the heap and the sort call
mutates that fresh cell, exactly as in the source. -/
def giniStepH (h : ArrayHeap) (r : ℕ) (totalDetections : ℚ) : ArrayHeap × ℚ :=
  if totalDetections > 0 then
    let hc := spreadCopy h r
    let hs := sortCall hc.1 hc.2
    let sorted := readCell hs.1 hs.2
    let n : ℚ := sorted.length
    (hs.1, max 0 ((2 * giniNumerator sorted) / (n * totalDetections) - (n + 1) / n))
  else (h, 0)

/-- The dailyClustering loop of precomputeMapStats over the heap: one Gini
step per day, each on its stored value vector and day total. -/
def giniPassH : ArrayHeap → List (ℕ × ℚ) → ArrayHeap × List ℚ
  | h, [] => (h, [])
  | h, rd :: rest =>
    let step := giniStepH h rd.1 rd.2
    let tail := giniPassH step.1 rest
    (tail.1, step.2 :: tail.2)

theorem readCell_append_left (h1 h2 : ArrayHeap) (r : ℕ) (hr : r < h1.length) :
    readCell (h1 ++ h2) r = readCell h1 r := by
  unfold readCell
  rw [List.getD_eq_getElem?_getD, List.getD_eq_getElem?_getD,
    List.getElem?_append_left hr]

theorem readCell_set_ne (h : ArrayHeap) (i : ℕ) (v : List ℚ) (r : ℕ)
    (hne : i ≠ r) : readCell (h.set i v) r = readCell h r := by
  unfold readCell
  rw [List.getD_eq_getElem?_getD, List.getD_eq_getElem?_getD,
    List.getElem?_set_ne hne]

theorem giniStepH_preserves (h : ArrayHeap) (r : ℕ) (t : ℚ) :
    (∀ r' : ℕ, r' < h.length → readCell (giniStepH h r t).1 r' = readCell h r') ∧
    h.length ≤ (giniStepH h r t).1.length := by
  unfold giniStepH
  split
  · dsimp only [spreadCopy, allocCell, sortCall, writeCell]
    constructor
    · intro r' hr'
      rw [readCell_set_ne _ _ _ _ (by omega),
        readCell_append_left _ _ _ hr']
    · simp
  · exact ⟨fun r' _ => rfl, le_refl _⟩

theorem readCell_concat_self (h : ArrayHeap) (v : List ℚ) :
    readCell (h ++ [v]) h.length = v := by
  unfold readCell
  rw [List.getD_eq_getElem?_getD, List.getElem?_concat_length]
  rfl

theorem readCell_set_self (h : ArrayHeap) (i : ℕ) (v : List ℚ)
    (hi : i < h.length) : readCell (h.set i v) i = v := by
  unfold readCell
  rw [List.getD_eq_getElem?_getD, List.getElem?_set_self hi]
  rfl

theorem giniStepH_value (h : ArrayHeap) (r : ℕ) (t : ℚ) :
    (giniStepH h r t).2 = giniValue (readCell h r) t := by
  by_cases ht : t > 0
  · unfold giniStepH giniValue
    rw [if_pos ht, if_pos ht]
    dsimp only [spreadCopy, allocCell, sortCall, writeCell]
    rw [readCell_set_self _ _ _ (by simp), readCell_concat_self]
  · unfold giniStepH giniValue
    rw [if_neg ht, if_neg ht]

theorem giniPassH_spec : ∀ (rows : List (ℕ × ℚ)) (h : ArrayHeap),
    (∀ p ∈ rows, p.1 < h.length) →
    (∀ r' : ℕ, r' < h.length →
      readCell (giniPassH h rows).1 r' = readCell h r') ∧
    h.length ≤ (giniPassH h rows).1.length ∧
    (giniPassH h rows).2
      = rows.map (fun p => giniValue (readCell h p.1) p.2) := by
  intro rows
  induction rows with
  | nil => exact fun h _ => ⟨fun r' _ => rfl, le_refl _, rfl⟩
  | cons rd rest ih =>
    intro h hv
    obtain ⟨hpres, hlen⟩ := giniStepH_preserves h rd.1 rd.2
    have hv' : ∀ p ∈ rest, p.1 < (giniStepH h rd.1 rd.2).1.length :=
      fun p hp => lt_of_lt_of_le (hv p (List.mem_cons_of_mem rd hp)) hlen
    obtain ⟨ih1, ih2, ih3⟩ := ih (giniStepH h rd.1 rd.2).1 hv'
    refine ⟨?_, ?_, ?_⟩
    · intro r' hr'
      show readCell (giniPassH (giniStepH h rd.1 rd.2).1 rest).1 r'
        = readCell h r'
      rw [ih1 r' (lt_of_lt_of_le hr' hlen), hpres r' hr']
    · exact le_trans hlen ih2
    · show (giniStepH h rd.1 rd.2).2
          :: (giniPassH (giniStepH h rd.1 rd.2).1 rest).2
        = ((rd :: rest).map (fun p => giniValue (readCell h p.1) p.2))
      rw [List.map_cons, ih3, giniStepH_value]
      congr 1
      apply List.map_congr_left
      intro p hp
      rw [hpres p.1 (hv p (List.mem_cons_of_mem rd hp))]

/-- C10: precomputeMapStats never mutates its input.  Lay out any pre-existing
arrays (the dates array, the mean array, and every per-site counts array)
followed by the stored per-day value vectors as heap cells; the dailyClustering
pass — the only part of precomputeMapStats that invokes a receiver-mutating
array method — leaves every one of those cells unchanged, because the sort is
applied to a freshly allocated spread copy of each stored vector, and it
computes exactly the pure dailyClustering values.  The remaining passes only
read their inputs and write freshly created arrays of numbers. -/
theorem precompute_no_mutation (sites : Sites) (numDays : ℕ) (inputs : ArrayHeap) :
    (∀ r' : ℕ,
      r' < (inputs ++ (List.range numDays).map (dailySiteValues sites)).length →
      readCell (giniPassH (inputs ++ (List.range numDays).map (dailySiteValues sites))
          ((List.range numDays).map (fun i => (inputs.length + i, dailyTotal sites i)))).1 r'
        = readCell (inputs ++ (List.range numDays).map (dailySiteValues sites)) r') ∧
    (∀ r' : ℕ, r' < inputs.length →
      readCell (giniPassH (inputs ++ (List.range numDays).map (dailySiteValues sites))
          ((List.range numDays).map (fun i => (inputs.length + i, dailyTotal sites i)))).1 r'
        = readCell inputs r') ∧
    (giniPassH (inputs ++ (List.range numDays).map (dailySiteValues sites))
        ((List.range numDays).map (fun i => (inputs.length + i, dailyTotal sites i)))).2
      = dailyClustering sites numDays := by
  have hlen0 : (inputs ++ (List.range numDays).map (dailySiteValues sites)).length
      = inputs.length + numDays := by
    simp
  have hv : ∀ p ∈ (List.range numDays).map
      (fun i => (inputs.length + i, dailyTotal sites i)),
      p.1 < (inputs ++ (List.range numDays).map (dailySiteValues sites)).length := by
    intro p hp
    simp only [List.mem_map, List.mem_range] at hp
    obtain ⟨i, hi, rfl⟩ := hp
    rw [hlen0]
    omega
  obtain ⟨h1, _, h3⟩ := giniPassH_spec
    ((List.range numDays).map (fun i => (inputs.length + i, dailyTotal sites i)))
    (inputs ++ (List.range numDays).map (dailySiteValues sites)) hv
  refine ⟨h1, ?_, ?_⟩
  · intro r' hr'
    rw [h1 r' (by rw [hlen0]; omega), readCell_append_left _ _ _ hr']
  · rw [h3, List.map_map]
    unfold dailyClustering
    apply List.map_congr_left
    intro i hi
    rw [List.mem_range] at hi
    have hcell : readCell (inputs ++ (List.range numDays).map (dailySiteValues sites))
        (inputs.length + i) = dailySiteValues sites i := by
      unfold readCell
      rw [List.getD_eq_getElem?_getD,
        List.getElem?_append_right (by omega : inputs.length ≤ inputs.length + i)]
      simp [hi]
    simp only [Function.comp]
    rw [hcell]

end PhenoPam
